import Mathlib

/-!
Verification of `src/perturbations/thai_perturb.py`.

The module is a family of text-to-text perturbation rules over Thai text plus
a registry and dispatcher.  The shallow embedding below works on `String`
(with `List Char` as the underlying data), and makes the two external
effects of the Python module explicit parameters:

* the external tokenizer `word_tokenize` becomes a parameter
  `seg : String → List String` (and, where exception propagation is the
  point, `segE : String → Except E (List String)`);
* the shared pseudo-random source becomes a parameter `pick : Nat → Nat`
  giving the value drawn at the i-th draw (`random.choice` is modelled by
  the drawn index into the candidate list, `random.randint (0, n-2)` by the
  drawn swap position).

All scanning functions are structural recursions so that every definition
is kernel-computable.
-/

/-- Does `pat` occur at the head of `l`?  This is the single-position match
test used by the substring scanners below. -/
def firstMatch : List Char → List Char → Bool
  | [], _ => true
  | _ :: _, [] => false
  | p :: ps, c :: cs => p == c && firstMatch ps cs

/-- Does `pat` occur anywhere in `l`?  Mirrors the Python substring test
`pat in s`. -/
def hasOcc (pat : List Char) : List Char → Bool
  | [] => firstMatch pat []
  | c :: cs => firstMatch pat (c :: cs) || hasOcc pat cs

/-- Scanner for Python `str.replace`: `replAux pat repl l k` scans `l` left to
right; while `k > 0` the scanner is still inside an already-replaced match and
merely consumes characters; at `k = 0` it tests for a match of `pat`, emits
`repl` on a match (then skips the rest of the matched text) and otherwise
copies one character.  Structural in `l`. -/
def replAux (pat repl : List Char) : List Char → Nat → List Char
  | [], _ => []
  | _ :: cs, Nat.succ k => replAux pat repl cs k
  | c :: cs, 0 =>
    if firstMatch pat (c :: cs) then repl ++ replAux pat repl cs (pat.length - 1)
    else c :: replAux pat repl cs 0

/-- Python `s.replace(pat, repl)`: replace every non-overlapping occurrence of
`pat`, left to right, without rescanning the replacement text. -/
def replaceAll (pat repl l : List Char) : List Char := replAux pat repl l 0

/-- Word characters for the Python regex `\b` boundary, restricted to the
character repertoire this module works with: ASCII alphanumerics and
underscore, plus the Thai script letters (`Lo`, `Lm`) and Thai digits (`Nd`).
Thai combining marks (`Mn`), the baht sign and Thai punctuation are not word
characters, matching Python's `\w` (which follows `str.isalnum`). -/
def isWordChar (c : Char) : Bool :=
  c.isAlphanum || c == '_' ||
  (0x0E01 ≤ c.toNat && c.toNat ≤ 0x0E30) || c.toNat == 0x0E32 || c.toNat == 0x0E33 ||
  (0x0E40 ≤ c.toNat && c.toNat ≤ 0x0E46) || (0x0E50 ≤ c.toNat && c.toNat ≤ 0x0E59)

/-- A boundary position: either the edge of the string (`none`) or a
non-word character. -/
def nonWordOpt : Option Char → Bool
  | none => true
  | some c => !isWordChar c

/-- Match test for `re.sub(r"\b<pat>\b", ...)` at one position, for a literal
`pat` whose first and last characters are word characters (true of all three
pronouns in `ner`): `pat` must start here, the previous character `prev` must
be a boundary, and so must the character right after the match. -/
def bdMatch (pat : List Char) (prev : Option Char) (l : List Char) : Bool :=
  firstMatch pat l && nonWordOpt prev && nonWordOpt (l.drop pat.length).head?

/-- Scanner for `re.sub(r"\b<pat>\b", repl, s)`: like `replAux` but each
position's test is the word-boundary match `bdMatch`, and the previously
consumed character is threaded through as `prev` (boundaries are judged
against the original text, as `re.sub` does). -/
def subAux (pat repl : List Char) : List Char → Option Char → Nat → List Char
  | [], _, _ => []
  | c :: cs, _, Nat.succ k => subAux pat repl cs (some c) k
  | c :: cs, prev, 0 =>
    if bdMatch pat prev (c :: cs) then repl ++ subAux pat repl cs (some c) (pat.length - 1)
    else c :: subAux pat repl cs (some c) 0

/-- `re.sub(r"\b<pat>\b", repl, s)` on the character list of `s`. -/
def subWB (pat repl l : List Char) : List Char := subAux pat repl l none 0

/-- Is there a whole-word (boundary-delimited) occurrence of `pat` in `l`,
scanning with previous-character context `prev`?  This is exactly the set of
positions at which `subAux` would fire. -/
def wwScan (pat : List Char) (prev : Option Char) : List Char → Bool
  | [] => bdMatch pat prev []
  | c :: cs => bdMatch pat prev (c :: cs) || wwScan pat (some c) cs

/-- No plain occurrence of `pat` starts inside the `u` portion of `u ++ rest`
(used to locate the leftmost occurrence for `replaceAll`). -/
def noStartIn (pat : List Char) : List Char → List Char → Bool
  | [], _ => true
  | c :: cs, rest => !(firstMatch pat (c :: (cs ++ rest))) && noStartIn pat cs rest

/-- No boundary-delimited occurrence of `pat` starts inside the `u` portion of
`u ++ rest`, scanning with previous-character context `prev`. -/
def noMatchIn (pat : List Char) (prev : Option Char) : List Char → List Char → Bool
  | [], _ => true
  | c :: cs, rest => !(bdMatch pat prev (c :: (cs ++ rest))) && noMatchIn pat (some c) cs rest

/-- Last character of `w` if it has one, else the prior context `prev`:
the previous-character context after consuming `w`. -/
def ctxAfter (w : List Char) (prev : Option Char) : Option Char :=
  match w.getLast? with
  | some c => some c
  | none => prev

def emptyStr : String := ""

def noChoice : String := ""

/-- Synonym table `THAI_SYNONYMS` from the source. -/
def THAI_SYNONYMS : List (String × List String) :=
  [(r"ดี", [r"เยี่ยม", r"ยอดเยี่ยม", r"เลิศ"]),
   (r"แย่", [r"เลว", r"ห่วย", r"ไม่ดี"]),
   (r"เหนื่อย", [r"ล้า", r"เมื่อย", r"อ่อนเพลีย"])]

/-- Python `THAI_SYNONYMS.get(tok, [tok])`: the candidate list handed to
`random.choice`. -/
def synOptions (tok : String) : List String := (THAI_SYNONYMS.lookup tok).getD [tok]

/-- `random.choice(THAI_SYNONYMS.get(tok, [tok]))` where the random source
drew index `i`; `random.choice` always draws a valid index, so out-of-range
`i` (which cannot occur) yields the junk value `noChoice`. -/
def chooseSyn (i : Nat) (tok : String) : String := (synOptions tok).getD i noChoice

/-- Rule `taxonomy`: tokenize, replace each token with the drawn choice from
its synonym list (or itself when absent), and rejoin with no separator.
The i-th token uses the i-th random draw `pick i`. -/
def taxonomy (seg : String → List String) (pick : Nat → Nat) (sentence : String) : String :=
  String.join (((seg sentence).enum).map fun it => chooseSyn (pick it.1) it.2)

def iPron : String := "ฉัน"

def iPron2 : String := "ผม"

def youPron : String := "เธอ"

def maleName : String := "สมชาย"

def femaleName : String := "สมหญิง"

/-- Rule `ner`: the three `re.sub(r"\b..\b", ..)` substitutions of the source,
applied in source order (`ฉัน`, then `ผม`, then `เธอ`). -/
def ner (sentence : String) : String :=
  ⟨subWB youPron.data femaleName.data
    (subWB iPron2.data maleName.data
      (subWB iPron.data maleName.data sentence.data))⟩

def thaiNot : String := "ไม่"

/-- Rule `negation`: prefix with the negation particle unless it is already
present (`sentence if "ไม่" in sentence else f"ไม่ {sentence}"`). -/
def negation (sentence : String) : String :=
  if hasOcc thaiNot.data sentence.data then sentence else thaiNot ++ " " ++ sentence

def rareWord : String := "บลูเบอร์รี่"

/-- Rule `vocab`: append the fixed rare word (`f"{sentence} บลูเบอร์รี่"`). -/
def vocab (sentence : String) : String := sentence ++ " " ++ rareWord

def teacherWord : String := "ครู"

def teacherSub : String := "ครูผู้หญิง"

def studentWord : String := "นักเรียน"

def studentSub : String := "นักเรียนชาย"

/-- Rule `fairness`: the two chained `str.replace` calls of the source, in
source order (teacher noun first, then student noun). -/
def fairness (sentence : String) : String :=
  ⟨replaceAll studentWord.data studentSub.data
    (replaceAll teacherWord.data teacherSub.data sentence.data)⟩

/-- Swap the adjacent characters at positions `n` and `n + 1` (the list-level
content of the Python tuple assignment in `_swap_adjacent_chars`). -/
def swapAt : Nat → List Char → List Char
  | 0, a :: b :: t => b :: a :: t
  | 0, l => l
  | Nat.succ n, a :: t => a :: swapAt n t
  | Nat.succ _, [] => []

/-- Helper `_swap_adjacent_chars`: words of length < 2 are returned
unchanged, otherwise the characters at the drawn position `idx` and its
successor are swapped. -/
def swapAdjacentChars (idx : Nat) (word : String) : String :=
  if word.length < 2 then word else ⟨swapAt idx word.data⟩

/-- Rule `robustness`: tokenize, swap one adjacent character pair in each
token (at the drawn position `pick i` for the i-th token), rejoin with no
separator. -/
def robustness (seg : String → List String) (pick : Nat → Nat) (sentence : String) : String :=
  String.join (((seg sentence).enum).map fun it => swapAdjacentChars (pick it.1) it.2)

def temporalPhrase : String := "เมื่อวานนี้"

/-- Rule `temporal`: prepend the fixed temporal phrase
(`f"เมื่อวานนี้ {sentence}"`). -/
def temporal (sentence : String) : String := temporalPhrase ++ " " ++ sentence

def eatWord : String := "กิน"

def eatSub : String := "รับประทาน"

/-- Rule `srl`: `sentence.replace("กิน", "รับประทาน") if "กิน" in sentence
else sentence`. -/
def srl (sentence : String) : String :=
  if hasOcc eatWord.data sentence.data then
    ⟨replaceAll eatWord.data eatSub.data sentence.data⟩
  else sentence

/-- Registry `ALL_PERTURBATIONS`, in source (insertion) order.  The two rules
that consult the tokenizer and the random source receive them as the explicit
parameters `seg`, `pickT`, `pickR`. -/
def ALL_PERTURBATIONS (seg : String → List String) (pickT pickR : Nat → Nat) :
    List (String × (String → String)) :=
  [(r"taxonomy", taxonomy seg pickT), (r"ner", ner), (r"negation", negation),
   (r"vocab", vocab), (r"fairness", fairness), (r"robustness", robustness seg pickR),
   (r"temporal", temporal), (r"srl", srl)]

/-- Dispatcher `apply_all`: run every registered rule on the sentence and
collect the results keyed by rule name. -/
def apply_all (seg : String → List String) (pickT pickR : Nat → Nat) (sentence : String) :
    List (String × String) :=
  (ALL_PERTURBATIONS seg pickT pickR).map fun nf => (nf.1, nf.2 sentence)

/-- The eight built-in perturbation names, in registry order. -/
def perturbNames : List String :=
  [r"taxonomy", r"ner", r"negation", r"vocab", r"fairness", r"robustness",
   r"temporal", r"srl"]

/-- `taxonomy` with a fallible tokenizer: the Python call raises whatever
`word_tokenize` raises (there is no handler in the source), which the
embedding renders as `Except`: an error result of the tokenizer becomes the
error result of the rule. -/
def taxonomyE {E : Type} (segE : String → Except E (List String)) (pick : Nat → Nat)
    (sentence : String) : Except E String :=
  match segE sentence with
  | Except.error e => Except.error e
  | Except.ok tokens =>
      Except.ok (String.join ((tokens.enum).map fun it => chooseSyn (pick it.1) it.2))

/-- `robustness` with a fallible tokenizer, exactly as `taxonomyE`. -/
def robustnessE {E : Type} (segE : String → Except E (List String)) (pick : Nat → Nat)
    (sentence : String) : Except E String :=
  match segE sentence with
  | Except.error e => Except.error e
  | Except.ok tokens =>
      Except.ok (String.join ((tokens.enum).map fun it => swapAdjacentChars (pick it.1) it.2))

lemma firstMatch_append_self (pat rest : List Char) : firstMatch pat (pat ++ rest) = true := by
  induction pat with
  | nil => rfl
  | cons p ps ih => simp [firstMatch, ih]

lemma hasOcc_append_self (pat rest : List Char) (h : pat ≠ []) :
    hasOcc pat (pat ++ rest) = true := by
  cases pat with
  | nil => exact absurd rfl h
  | cons p ps =>
    have h1 := firstMatch_append_self (p :: ps) rest
    rw [List.cons_append] at h1 ⊢
    rw [hasOcc, h1]
    rfl

lemma joinNil : String.join [] = emptyStr := rfl

lemma joinSingle (s : String) : String.join [s] = s := by
  cases s
  rfl

/-- Claim C2: for every sentence (including empty and whitespace-only ones)
and for any tokenizer and random draws, the dispatcher result has exactly the
eight built-in names as keys, one entry per registered rule, in registry
order, with no duplicates. -/
theorem apply_all_exact_names (seg : String → List String) (pickT pickR : Nat → Nat)
    (s : String) :
    (apply_all seg pickT pickR s).map Prod.fst = perturbNames ∧ perturbNames.Nodup :=
  ⟨rfl, by decide⟩

/-- Claim C8: the six rules that do not draw from the random source (`ner`,
`negation`, `vocab`, `fairness`, `temporal`, `srl`) are deterministic: their
entries in the dispatcher result are unchanged under any change of the
tokenizer or of the random draws, hence independent of prior calls through
the shared random source. -/
theorem deterministic_rules_independent (seg seg' : String → List String)
    (pT pR pT' pR' : Nat → Nat) (s : String) :
    (apply_all seg pT pR s).lookup (r"ner") = (apply_all seg' pT' pR' s).lookup (r"ner") ∧
    (apply_all seg pT pR s).lookup (r"negation")
      = (apply_all seg' pT' pR' s).lookup (r"negation") ∧
    (apply_all seg pT pR s).lookup (r"vocab") = (apply_all seg' pT' pR' s).lookup (r"vocab") ∧
    (apply_all seg pT pR s).lookup (r"fairness")
      = (apply_all seg' pT' pR' s).lookup (r"fairness") ∧
    (apply_all seg pT pR s).lookup (r"temporal")
      = (apply_all seg' pT' pR' s).lookup (r"temporal") ∧
    (apply_all seg pT pR s).lookup (r"srl") = (apply_all seg' pT' pR' s).lookup (r"srl") :=
  ⟨rfl, rfl, rfl, rfl, rfl, rfl⟩

/-- Claim C9: `fairness` is not idempotent: the substituted output for a
sentence containing the teacher noun still contains that noun, so a second
application appends the gender suffix again. -/
theorem fairness_not_idempotent : ∃ s : String, fairness (fairness s) ≠ fairness s :=
  ⟨teacherWord, by decide⟩

/-- Claim C1, counterexample: with a tokenizer that returns an empty token
sequence for the non-empty sentence `thaiNot`, `taxonomy` returns the empty
string as a successful result — it does not propagate any failure, contrary
to the claim. -/
theorem taxonomy_empty_segmentation_cex :
    taxonomyE (fun _ : String => (Except.ok [] : Except Unit (List String)))
      (fun _ => 0) thaiNot = Except.ok emptyStr ∧ thaiNot ≠ emptyStr :=
  ⟨rfl, by decide⟩

/-- Claim C1 (amended): a tokenizer failure (a raised exception) propagates
unmodified through `taxonomy` and `robustness`; but when segmentation merely
returns an empty token sequence, both rules return the empty string as a
successful result rather than propagating a failure. -/
theorem segmentation_failure_propagation (E : Type) (segE : String → Except E (List String))
    (pick : Nat → Nat) (s : String) :
    (∀ e, segE s = Except.error e →
      taxonomyE segE pick s = Except.error e ∧ robustnessE segE pick s = Except.error e) ∧
    (segE s = Except.ok [] →
      taxonomyE segE pick s = Except.ok emptyStr ∧ robustnessE segE pick s = Except.ok emptyStr) := by
  constructor
  · intro e he
    constructor
    · simp [taxonomyE, he]
    · simp [robustnessE, he]
  · intro he
    constructor
    · simp [taxonomyE, he, joinNil]
    · simp [robustnessE, he, joinNil]

/-- Claim C1 (amended), witness: a concrete tokenizer failure propagates
through `taxonomyE`. -/
theorem segmentation_failure_propagation_witness :
    taxonomyE (fun _ : String => (Except.error 3 : Except Nat (List String)))
      (fun _ => 0) emptyStr = Except.error 3 :=
  ((segmentation_failure_propagation Nat
    (fun _ => (Except.error 3 : Except Nat (List String))) (fun _ => 0) emptyStr).1 3 rfl).1

/-- Claim C3: if the sentence contains the negation particle, `negation`
returns it unchanged; otherwise the result is exactly the particle, a space
separator, then the sentence — so it starts with the particle and has the
sentence as a suffix — and `negation` is idempotent. -/
theorem negation_spec (s : String) :
    (hasOcc thaiNot.data s.data = true → negation s = s) ∧
    (hasOcc thaiNot.data s.data = false →
      negation s = thaiNot ++ " " ++ s ∧
      thaiNot.data <+: (negation s).data ∧ s.data <:+ (negation s).data) ∧
    negation (negation s) = negation s := by
  refine ⟨fun h => ?_, fun h => ?_, ?_⟩
  · simp [negation, h]
  · have h1 : negation s = thaiNot ++ " " ++ s := by simp [negation, h]
    refine ⟨h1, ?_, ?_⟩
    · rw [h1, String.data_append, String.data_append, List.append_assoc]
      exact List.prefix_append _ _
    · rw [h1, String.data_append]
      exact List.suffix_append _ _
  · cases h : hasOcc thaiNot.data s.data with
    | true =>
      have h1 : negation s = s := by simp [negation, h]
      rw [h1]
      exact h1
    | false =>
      have h1 : negation s = thaiNot ++ " " ++ s := by simp [negation, h]
      have h2 : hasOcc thaiNot.data (thaiNot ++ " " ++ s).data = true := by
        rw [String.data_append, String.data_append, List.append_assoc]
        exact hasOcc_append_self _ _ (by decide)
      rw [h1, negation, if_pos h2]

/-- Claim C3, witness: a sentence containing the particle is unchanged, and a
sentence without it gets the particle and separator prepended. -/
theorem negation_spec_witness :
    negation thaiNot = thaiNot ∧ negation teacherWord = thaiNot ++ " " ++ teacherWord := by
  constructor
  · exact (negation_spec thaiNot).1 (by decide)
  · exact ((negation_spec teacherWord).2.1 (by decide)).1

lemma firstMatch_length_le (pat l : List Char) (h : firstMatch pat l = true) :
    pat.length ≤ l.length := by
  induction pat generalizing l with
  | nil => simp
  | cons p ps ih =>
    cases l with
    | nil => simp [firstMatch] at h
    | cons c cs =>
      rw [firstMatch, Bool.and_eq_true] at h
      simpa using ih cs h.2

lemma replAux_skip (pat repl : List Char) : ∀ (w r : List Char),
    replAux pat repl (w ++ r) w.length = replAux pat repl r 0 := by
  intro w
  induction w with
  | nil => intro r; rfl
  | cons a w' ih => intro r; exact ih r

lemma hasOcc_cons_of_head_ne (p c : Char) (ps y : List Char) (h : (p == c) = false) :
    hasOcc (p :: ps) (c :: y) = hasOcc (p :: ps) y := by
  rw [hasOcc, firstMatch, h]
  rfl

lemma hasOcc_append_no_head (p : Char) (ps : List Char) : ∀ (w y : List Char),
    (∀ c ∈ w, (p == c) = false) → hasOcc (p :: ps) (w ++ y) = hasOcc (p :: ps) y := by
  intro w
  induction w with
  | nil => intro y _; rfl
  | cons a w' ih =>
    intro y hw
    rw [List.cons_append, hasOcc_cons_of_head_ne _ _ _ _ (hw a (List.mem_cons_self a w'))]
    exact ih y fun c hc => hw c (List.mem_cons_of_mem a hc)

/-- After replacing every occurrence of the three-character pattern
`[p1, p2, p3]` by `r1 :: rt`, no occurrence of the pattern remains, provided
`p1` does not occur in the replacement and neither `p2` nor `p3` equals the
replacement's first character (so no occurrence can straddle a replacement).
The two auxiliary conjuncts strengthen the induction: a proper suffix of the
pattern can only start the output if it already started the input. -/
lemma replace3_no_occ (p1 p2 p3 r1 : Char) (rt : List Char)
    (hno : ∀ c ∈ r1 :: rt, (p1 == c) = false)
    (h21 : (p2 == r1) = false) (h31 : (p3 == r1) = false) :
    ∀ n (l : List Char), l.length ≤ n →
      hasOcc [p1, p2, p3] (replAux [p1, p2, p3] (r1 :: rt) l 0) = false ∧
      (firstMatch [p2, p3] (replAux [p1, p2, p3] (r1 :: rt) l 0) = true →
        firstMatch [p2, p3] l = true) ∧
      (firstMatch [p3] (replAux [p1, p2, p3] (r1 :: rt) l 0) = true →
        firstMatch [p3] l = true) := by
  intro n
  induction n with
  | zero =>
    intro l hl
    have hnil : l = [] := List.length_eq_zero.mp (Nat.le_zero.mp hl)
    subst hnil
    exact ⟨rfl, fun h => h, fun h => h⟩
  | succ n ih =>
    intro l hl
    cases l with
    | nil => exact ⟨rfl, fun h => h, fun h => h⟩
    | cons c cs =>
      have hcs : cs.length ≤ n := by
        rw [List.length_cons] at hl
        omega
      cases hm : firstMatch [p1, p2, p3] (c :: cs) with
      | true =>
        have e1 : replAux [p1, p2, p3] (r1 :: rt) (c :: cs) 0
            = (r1 :: rt) ++ replAux [p1, p2, p3] (r1 :: rt) cs 2 := by
          rw [replAux, if_pos hm]
          rfl
        have hlen : 2 ≤ cs.length := by
          have h3 := firstMatch_length_le _ _ hm
          simp at h3
          omega
        have ht : (cs.take 2).length = 2 := by
          rw [List.length_take]
          omega
        have e2 : replAux [p1, p2, p3] (r1 :: rt) cs 2
            = replAux [p1, p2, p3] (r1 :: rt) (cs.drop 2) 0 := by
          calc replAux [p1, p2, p3] (r1 :: rt) cs 2
              = replAux [p1, p2, p3] (r1 :: rt) (cs.take 2 ++ cs.drop 2) ((cs.take 2).length) := by
                rw [List.take_append_drop, ht]
            _ = replAux [p1, p2, p3] (r1 :: rt) (cs.drop 2) 0 := replAux_skip _ _ _ _
        obtain ⟨ih1, ih2, ih3⟩ := ih (cs.drop 2) (by rw [List.length_drop]; omega)
        rw [e1, e2]
        refine ⟨?_, ?_, ?_⟩
        · rw [hasOcc_append_no_head _ _ _ _ hno]
          exact ih1
        · intro hcontra
          rw [List.cons_append, firstMatch, h21] at hcontra
          simp at hcontra
        · intro hcontra
          rw [List.cons_append, firstMatch, h31] at hcontra
          simp at hcontra
      | false =>
        have e1 : replAux [p1, p2, p3] (r1 :: rt) (c :: cs) 0
            = c :: replAux [p1, p2, p3] (r1 :: rt) cs 0 := by
          rw [replAux, if_neg]
          simp [hm]
        obtain ⟨ih1, ih2, ih3⟩ := ih cs hcs
        rw [e1]
        refine ⟨?_, ?_, ?_⟩
        · cases hf : firstMatch [p1, p2, p3] (c :: replAux [p1, p2, p3] (r1 :: rt) cs 0) with
          | false => rw [hasOcc, hf, ih1]; rfl
          | true =>
            exfalso
            rw [firstMatch, Bool.and_eq_true] at hf
            have hcs2 := ih2 hf.2
            have : firstMatch [p1, p2, p3] (c :: cs) = true := by
              rw [firstMatch, hf.1, hcs2]
              rfl
            rw [hm] at this
            exact Bool.false_ne_true this
        · intro h
          rw [firstMatch, Bool.and_eq_true] at h
          rw [firstMatch, h.1, ih3 h.2]
          rfl
        · intro h
          rw [firstMatch, Bool.and_eq_true] at h
          rw [firstMatch, h.1]
          rfl

/-- Claim C10: `srl` is idempotent: one application replaces every occurrence
of the target verb, and the replacement neither contains the target verb nor
can complete a new occurrence at its seams, so a second application is the
identity. -/
theorem srl_idempotent (s : String) : srl (srl s) = srl s := by
  cases h : hasOcc eatWord.data s.data with
  | false =>
    have h1 : srl s = s := by simp [srl, h]
    rw [h1]
    exact h1
  | true =>
    have h1 : srl s = ⟨replaceAll eatWord.data eatSub.data s.data⟩ := by simp [srl, h]
    have hpat : eatWord.data = ['ก', 'ิ', 'น'] := rfl
    have hrepl : eatSub.data = 'ร' :: (r"ับประทาน").data := rfl
    have hocc : hasOcc eatWord.data (replaceAll eatWord.data eatSub.data s.data) = false := by
      rw [replaceAll, hpat, hrepl]
      exact (replace3_no_occ 'ก' 'ิ' 'น' 'ร' (r"ับประทาน").data (by decide) (by decide)
        (by decide) s.data.length s.data (le_refl _)).1
    rw [h1]
    simp [srl, hocc]

lemma swapAt_length : ∀ (n : Nat) (l : List Char), (swapAt n l).length = l.length := by
  intro n
  induction n with
  | zero =>
    intro l
    cases l with
    | nil => rfl
    | cons a t =>
      cases t with
      | nil => rfl
      | cons b t' => rfl
  | succ n ih =>
    intro l
    cases l with
    | nil => rfl
    | cons a t =>
      show (a :: swapAt n t).length = (a :: t).length
      simp [ih t]

lemma swapAt_perm : ∀ (n : Nat) (l : List Char), (swapAt n l).Perm l := by
  intro n
  induction n with
  | zero =>
    intro l
    cases l with
    | nil => exact List.Perm.refl _
    | cons a t =>
      cases t with
      | nil => exact List.Perm.refl _
      | cons b t' => exact List.Perm.swap a b t'
  | succ n ih =>
    intro l
    cases l with
    | nil => exact List.Perm.refl _
    | cons a t => exact (ih t).cons a

lemma swapAt_getElem?_ne : ∀ (n : Nat) (l : List Char) (j : Nat), j ≠ n → j ≠ n + 1 →
    (swapAt n l)[j]? = l[j]? := by
  intro n
  induction n with
  | zero =>
    intro l j h0 h1
    cases l with
    | nil => rfl
    | cons a t =>
      cases t with
      | nil => rfl
      | cons b t' =>
        cases j with
        | zero => exact absurd rfl h0
        | succ j' =>
          cases j' with
          | zero => exact absurd rfl h1
          | succ k =>
            show (b :: a :: t')[k + 1 + 1]? = (a :: b :: t')[k + 1 + 1]?
            simp only [List.getElem?_cons_succ]
  | succ n ih =>
    intro l j h0 h1
    cases l with
    | nil => rfl
    | cons a t =>
      cases j with
      | zero =>
        show (a :: swapAt n t)[0]? = (a :: t)[0]?
        simp only [List.getElem?_cons_zero]
      | succ k =>
        show (a :: swapAt n t)[k + 1]? = (a :: t)[k + 1]?
        simp only [List.getElem?_cons_succ]
        exact ih t k (by omega) (by omega)

/-- Claim C4: on a sentence whose segmentation is the single token `T` of
length at least two, `robustness` returns a string of the same length as `T`
that is a permutation of `T`'s characters and agrees with `T` at every
position other than the drawn position and its successor (one adjacent
transposition); and every token of length < 2 is passed through
`swapAdjacentChars` unchanged. -/
theorem robustness_single_token (seg : String → List String) (pick : Nat → Nat)
    (s T : String) (hseg : seg s = [T]) (hlen : 2 ≤ T.length)
    (hpick : pick 0 + 2 ≤ T.length) :
    (robustness seg pick s).length = T.length ∧
    (robustness seg pick s).data.Perm T.data ∧
    (∀ j, j ≠ pick 0 → j ≠ pick 0 + 1 →
      (robustness seg pick s).data[j]? = T.data[j]?) ∧
    (∀ idx (w : String), w.length < 2 → swapAdjacentChars idx w = w) := by
  have hrob : robustness seg pick s = ⟨swapAt (pick 0) T.data⟩ := by
    unfold robustness
    rw [hseg]
    have e : (([T].enum).map fun it => swapAdjacentChars (pick it.1) it.2)
        = [swapAdjacentChars (pick 0) T] := rfl
    rw [e, joinSingle, swapAdjacentChars, if_neg (by omega)]
  refine ⟨?_, ?_, ?_, ?_⟩
  · rw [hrob]
    show (swapAt (pick 0) T.data).length = T.length
    rw [swapAt_length]
    rfl
  · rw [hrob]
    exact swapAt_perm _ _
  · intro j h0 h1
    rw [hrob]
    exact swapAt_getElem?_ne _ _ _ h0 h1
  · intro idx w hw
    rw [swapAdjacentChars, if_pos hw]

/-- Claim C4, witness: the single-token sentence `"กิน"` with drawn position 0
keeps its length and its character multiset. -/
theorem robustness_single_token_witness :
    (robustness (fun _ => [eatWord]) (fun _ => 0) eatWord).length = eatWord.length ∧
    (robustness (fun _ => [eatWord]) (fun _ => 0) eatWord).data.Perm eatWord.data := by
  have h := robustness_single_token (fun _ => [eatWord]) (fun _ => 0) eatWord eatWord rfl
    (by decide) (by decide)
  exact ⟨h.1, h.2.1⟩

lemma synOptions_length_pos (tok : String) : 0 < (synOptions tok).length := by
  unfold synOptions THAI_SYNONYMS
  simp only [List.lookup]
  split
  · simp
  · split
    · simp
    · split
      · simp
      · simp

/-- Claim C5 auxiliary: the mapped choices starting at any draw index are
pointwise either the original token or a member of its lexicon entry. -/
lemma taxonomy_choices_forall2 (pick : Nat → Nat)
    (hpick : ∀ j tok, pick j < (synOptions tok).length) :
    ∀ (ts : List String) (n : Nat),
      List.Forall₂
        (fun orig c => c = orig ∨ ∃ alts, THAI_SYNONYMS.lookup orig = some alts ∧ c ∈ alts)
        ts ((List.enumFrom n ts).map fun it => chooseSyn (pick it.1) it.2) := by
  intro ts
  induction ts with
  | nil => intro n; exact List.Forall₂.nil
  | cons t ts ih =>
    intro n
    refine List.Forall₂.cons ?_ (ih (n + 1))
    have hv := hpick n t
    have hget : chooseSyn (pick n) t = (synOptions t)[pick n] := by
      rw [chooseSyn, List.getD_eq_getElem _ _ hv]
    have hmem : chooseSyn (pick n) t ∈ synOptions t := by
      rw [hget]
      exact List.getElem_mem _
    cases hl : THAI_SYNONYMS.lookup t with
    | none =>
      left
      have hopt : synOptions t = [t] := by rw [synOptions, hl]; rfl
      rw [hopt] at hmem
      simpa using hmem
    | some alts =>
      right
      refine ⟨alts, rfl, ?_⟩
      have hopt : synOptions t = alts := by rw [synOptions, hl]; rfl
      rw [hopt] at hmem
      exact hmem

/-- Claim C5: whatever the segmentation and the random draws (which are
always valid indices into the candidate lists, as `random.choice` guarantees),
`taxonomy` is the separator-free concatenation, in segmentation order, of one
chosen token per original token, each chosen token being the original token
itself or one of its alternatives in the lexicon store. -/
theorem taxonomy_lexicon (seg : String → List String) (pick : Nat → Nat) (s : String)
    (hpick : ∀ j tok, pick j < (synOptions tok).length) :
    ∃ ch : List String, taxonomy seg pick s = String.join ch ∧
      List.Forall₂
        (fun orig c => c = orig ∨ ∃ alts, THAI_SYNONYMS.lookup orig = some alts ∧ c ∈ alts)
        (seg s) ch := by
  refine ⟨((seg s).enum).map fun it => chooseSyn (pick it.1) it.2, ?_, ?_⟩
  · rfl
  · exact taxonomy_choices_forall2 pick hpick (seg s) 0

/-- Claim C5, witness: a two-token segmentation with all draws at index 0;
the hypothesis holds because every candidate list is non-empty. -/
theorem taxonomy_lexicon_witness :
    ∃ ch : List String,
      taxonomy (fun _ => [teacherWord, eatWord]) (fun _ => 0) teacherWord = String.join ch ∧
      List.Forall₂
        (fun orig c => c = orig ∨ ∃ alts, THAI_SYNONYMS.lookup orig = some alts ∧ c ∈ alts)
        ((fun (_ : String) => [teacherWord, eatWord]) teacherWord) ch :=
  taxonomy_lexicon (fun _ => [teacherWord, eatWord]) (fun _ => 0) teacherWord
    (fun _ tok => synOptions_length_pos tok)

lemma replAux_no_occ (pat repl : List Char) : ∀ l, hasOcc pat l = false →
    replAux pat repl l 0 = l := by
  intro l
  induction l with
  | nil => intro _; rfl
  | cons c cs ih =>
    intro h
    rw [hasOcc, Bool.or_eq_false_iff] at h
    rw [replAux, if_neg (by simp [h.1]), ih h.2]

lemma replAux_split (pat repl v : List Char) (hne : pat ≠ []) : ∀ (u : List Char),
    noStartIn pat u (pat ++ v) = true →
    replAux pat repl (u ++ (pat ++ v)) 0 = u ++ repl ++ replAux pat repl v 0 := by
  intro u
  induction u with
  | nil =>
    intro _
    cases pat with
    | nil => exact absurd rfl hne
    | cons p pt =>
      show replAux (p :: pt) repl (p :: (pt ++ v)) 0
        = [] ++ repl ++ replAux (p :: pt) repl v 0
      have hfm : firstMatch (p :: pt) (p :: (pt ++ v)) = true :=
        firstMatch_append_self (p :: pt) v
      rw [replAux, if_pos hfm]
      rw [show ((p :: pt).length - 1) = pt.length from rfl]
      rw [replAux_skip (p :: pt) repl pt v]
      rfl
  | cons a u' ih =>
    intro hns
    rw [noStartIn, Bool.and_eq_true] at hns
    have hm : firstMatch pat (a :: (u' ++ (pat ++ v))) = false := by
      simpa using hns.1
    show replAux pat repl (a :: (u' ++ (pat ++ v))) 0
      = (a :: u') ++ repl ++ replAux pat repl v 0
    rw [replAux, if_neg (by simp [hm]), ih hns.2]
    rfl

/-- Claim C7: `fairness` performs literal whole-string substring substitution
in a fixed order (teacher noun first, then student noun), with no
word-boundary condition: whatever the surrounding context `u`/`v` — including
an occurrence embedded inside a longer word — the role noun is replaced by the
noun with the gender suffix appended. -/
theorem fairness_literal_substitution (u v : List Char) :
    (noStartIn teacherWord.data u (teacherWord.data ++ v) = true →
      hasOcc teacherWord.data v = false →
      hasOcc studentWord.data (u ++ teacherSub.data ++ v) = false →
      fairness ⟨u ++ teacherWord.data ++ v⟩ = ⟨u ++ teacherSub.data ++ v⟩) ∧
    (hasOcc teacherWord.data (u ++ studentWord.data ++ v) = false →
      noStartIn studentWord.data u (studentWord.data ++ v) = true →
      hasOcc studentWord.data v = false →
      fairness ⟨u ++ studentWord.data ++ v⟩ = ⟨u ++ studentSub.data ++ v⟩) := by
  constructor
  · intro h1 h2 h3
    have e1 : replAux teacherWord.data teacherSub.data (u ++ teacherWord.data ++ v) 0
        = u ++ teacherSub.data ++ replAux teacherWord.data teacherSub.data v 0 := by
      rw [List.append_assoc]
      exact replAux_split teacherWord.data teacherSub.data v (by decide) u h1
    have e2 : replAux teacherWord.data teacherSub.data v 0 = v :=
      replAux_no_occ _ _ v h2
    have e3 : replAux studentWord.data studentSub.data (u ++ teacherSub.data ++ v) 0
        = u ++ teacherSub.data ++ v :=
      replAux_no_occ _ _ _ h3
    show String.mk (replAux studentWord.data studentSub.data
        (replAux teacherWord.data teacherSub.data (u ++ teacherWord.data ++ v) 0) 0)
      = String.mk (u ++ teacherSub.data ++ v)
    rw [e1, e2, e3]
  · intro h1 h2 h3
    have e1 : replAux teacherWord.data teacherSub.data (u ++ studentWord.data ++ v) 0
        = u ++ studentWord.data ++ v :=
      replAux_no_occ _ _ _ h1
    have e2 : replAux studentWord.data studentSub.data (u ++ studentWord.data ++ v) 0
        = u ++ studentSub.data ++ replAux studentWord.data studentSub.data v 0 := by
      rw [List.append_assoc]
      exact replAux_split studentWord.data studentSub.data v (by decide) u h2
    have e3 : replAux studentWord.data studentSub.data v 0 = v :=
      replAux_no_occ _ _ v h3
    show String.mk (replAux studentWord.data studentSub.data
        (replAux teacherWord.data teacherSub.data (u ++ studentWord.data ++ v) 0) 0)
      = String.mk (u ++ studentSub.data ++ v)
    rw [e1, e2, e3]

/-- Claim C7, witness: the teacher noun occurring with Thai letters directly
on both sides (no word boundary anywhere) is still substituted. -/
theorem fairness_literal_substitution_witness :
    fairness ⟨(r"ใน").data ++ teacherWord.data ++ (r"ดี").data⟩
      = ⟨(r"ใน").data ++ teacherSub.data ++ (r"ดี").data⟩ :=
  (fairness_literal_substitution (r"ใน").data (r"ดี").data).1 (by decide) (by decide) (by decide)

lemma subAux_no_ww (pat repl : List Char) : ∀ (l : List Char) (prev : Option Char),
    wwScan pat prev l = false → subAux pat repl l prev 0 = l := by
  intro l
  induction l with
  | nil => intro prev _; rfl
  | cons c cs ih =>
    intro prev h
    rw [wwScan, Bool.or_eq_false_iff] at h
    rw [subAux, if_neg (by simp [h.1]), ih (some c) h.2]

lemma getLast?_cons_ne_none (b : Char) : ∀ (t : List Char), (b :: t).getLast? ≠ none := by
  intro t
  induction t generalizing b with
  | nil => simp
  | cons c t' ih =>
    rw [List.getLast?_cons_cons]
    exact ih c

lemma ctxAfter_nil (prev : Option Char) : ctxAfter [] prev = prev := rfl

lemma ctxAfter_cons (a : Char) (w : List Char) (prev : Option Char) :
    ctxAfter (a :: w) prev = ctxAfter w (some a) := by
  cases w with
  | nil => rfl
  | cons b t =>
    unfold ctxAfter
    rw [List.getLast?_cons_cons]
    cases h : (b :: t).getLast? with
    | some c => rfl
    | none => exact absurd h (getLast?_cons_ne_none b t)

lemma subAux_skip (pat repl : List Char) : ∀ (w r : List Char) (prev : Option Char),
    subAux pat repl (w ++ r) prev w.length = subAux pat repl r (ctxAfter w prev) 0 := by
  intro w
  induction w with
  | nil => intro r prev; rfl
  | cons a w' ih =>
    intro r prev
    rw [ctxAfter_cons]
    exact ih r (some a)

lemma subAux_split (pat repl v : List Char) (hne : pat ≠ []) : ∀ (u : List Char)
    (prev : Option Char),
    noMatchIn pat prev u (pat ++ v) = true →
    nonWordOpt (ctxAfter u prev) = true →
    nonWordOpt v.head? = true →
    subAux pat repl (u ++ (pat ++ v)) prev 0
      = u ++ repl ++ subAux pat repl v (ctxAfter pat (ctxAfter u prev)) 0 := by
  intro u
  induction u with
  | nil =>
    intro prev _ hb ha
    cases pat with
    | nil => exact absurd rfl hne
    | cons p pt =>
      rw [ctxAfter_nil] at hb
      have hcond : bdMatch (p :: pt) prev (p :: (pt ++ v)) = true := by
        have hfm : firstMatch (p :: pt) (p :: (pt ++ v)) = true :=
          firstMatch_append_self (p :: pt) v
        have hdrop : ((p :: (pt ++ v)).drop (p :: pt).length).head? = v.head? := by
          have := List.drop_left (p :: pt) v
          rw [show ((p :: pt) ++ v) = p :: (pt ++ v) from rfl] at this
          rw [this]
        unfold bdMatch
        rw [hfm, hdrop, hb, ha]
        rfl
      show subAux (p :: pt) repl (p :: (pt ++ v)) prev 0
        = [] ++ repl ++ subAux (p :: pt) repl v (ctxAfter (p :: pt) (ctxAfter [] prev)) 0
      rw [subAux, if_pos hcond]
      rw [show ((p :: pt).length - 1) = pt.length from rfl]
      rw [subAux_skip (p :: pt) repl pt v (some p)]
      rw [ctxAfter_nil, ctxAfter_cons]
      rfl
  | cons a u' ih =>
    intro prev hnm hb ha
    rw [noMatchIn, Bool.and_eq_true] at hnm
    have hm : bdMatch pat prev (a :: (u' ++ (pat ++ v))) = false := by
      simpa using hnm.1
    show subAux pat repl (a :: (u' ++ (pat ++ v))) prev 0
      = (a :: u') ++ repl ++ subAux pat repl v (ctxAfter pat (ctxAfter (a :: u') prev)) 0
    rw [ctxAfter_cons] at hb ⊢
    rw [subAux, if_neg (by simp [hm]), ih (some a) hnm.2 hb ha]
    rfl

/-- Claim C6: `ner` leaves a sentence unchanged when it contains no
whole-word (word-boundary-delimited) occurrence of any of the three targeted
pronouns; and a whole-word occurrence of the first-person pronoun `ฉัน` —
delimited by string edges or non-word characters — is replaced by its fixed
fictitious proper noun `สมชาย`, the surrounding context being preserved.  The
remaining hypotheses say the context contributes no other whole-word
pronoun occurrence. -/
theorem ner_whole_word :
    (∀ s : String, wwScan iPron.data none s.data = false →
      wwScan iPron2.data none s.data = false →
      wwScan youPron.data none s.data = false → ner s = s) ∧
    (∀ u v : List Char,
      noMatchIn iPron.data none u (iPron.data ++ v) = true →
      nonWordOpt (ctxAfter u none) = true →
      nonWordOpt v.head? = true →
      wwScan iPron.data (ctxAfter iPron.data (ctxAfter u none)) v = false →
      wwScan iPron2.data none (u ++ maleName.data ++ v) = false →
      wwScan youPron.data none (u ++ maleName.data ++ v) = false →
      ner ⟨u ++ iPron.data ++ v⟩ = ⟨u ++ maleName.data ++ v⟩) := by
  constructor
  · intro s h1 h2 h3
    show String.mk (subAux youPron.data femaleName.data
        (subAux iPron2.data maleName.data
          (subAux iPron.data maleName.data s.data none 0) none 0) none 0) = s
    rw [subAux_no_ww _ _ _ _ h1, subAux_no_ww _ _ _ _ h2, subAux_no_ww _ _ _ _ h3]
  · intro u v h1 h2 h3 h4 h5 h6
    have e1 : subAux iPron.data maleName.data (u ++ iPron.data ++ v) none 0
        = u ++ maleName.data ++ v := by
      rw [List.append_assoc]
      rw [subAux_split iPron.data maleName.data v (by decide) u none h1 h2 h3]
      rw [subAux_no_ww _ _ _ _ h4]
    have e2 : subAux iPron2.data maleName.data (u ++ maleName.data ++ v) none 0
        = u ++ maleName.data ++ v := subAux_no_ww _ _ _ _ h5
    have e3 : subAux youPron.data femaleName.data (u ++ maleName.data ++ v) none 0
        = u ++ maleName.data ++ v := subAux_no_ww _ _ _ _ h6
    show String.mk (subAux youPron.data femaleName.data
        (subAux iPron2.data maleName.data
          (subAux iPron.data maleName.data (u ++ iPron.data ++ v) none 0) none 0) none 0)
      = String.mk (u ++ maleName.data ++ v)
    rw [e1, e2, e3]

/-- Claim C6, witness: a sentence with no whole-word pronoun is unchanged, and
the pronoun `ฉัน` surrounded by spaces is replaced by `สมชาย`. -/
theorem ner_whole_word_witness :
    ner eatWord = eatWord ∧
    ner ⟨(r" ").data ++ iPron.data ++ (r" ").data⟩
      = ⟨(r" ").data ++ maleName.data ++ (r" ").data⟩ :=
  ⟨ner_whole_word.1 eatWord (by decide) (by decide) (by decide),
   ner_whole_word.2 (r" ").data (r" ").data (by decide) (by decide) (by decide) (by decide)
     (by decide) (by decide)⟩
